import Mathlib

/-!
Verification of the Watts–Strogatz model script.

This file gives a shallow embedding of the `Graph` class of
`watts_strogatz_model.py` and proves (or refutes) the specified
properties of its algorithms: construction of the adjacency index and
the catalogue of all possible edges, the clustering-coefficient
recurrence, breadth-first shortest paths, the sampled average
shortest-path estimator, the randomized rewiring generator, and the
geographic ring-lattice factory.

Numeric conventions: Python integers become `Nat` (or `Int` where the
source can produce negative values, as in `make_graph`); Python float
arithmetic on the averaged statistics is embedded as exact rational
arithmetic (`ℚ`).  Calls to the random source (`rand.random`,
`rand.randint`) are embedded as explicit oracle arguments.  The
unbounded rejection loop of `randomize_graph` is given explicit fuel
and returns `Option`, `none` marking the diverging runs.
-/

/-- The catalogue `all_possible_edges` built in `Graph.__init__`:
for `a in range(num_vertices)`, for `b in range(a)`, append `(b, a)`. -/
def allPossibleEdges (num_vertices : Nat) : List (Nat × Nat) :=
  (List.range num_vertices).flatMap (fun a => (List.range a).map (fun b => (b, a)))

/-- One step of the `neighbors` construction in `Graph.__init__`:
`self.neighbors[e[0]].append(e[1]); self.neighbors[e[1]].append(e[0])`.
(`List.set` is a no-op out of range, matching the in-range use in the script.) -/
def addEdgeNbrs (ns : List (List Nat)) (e : Nat × Nat) : List (List Nat) :=
  (ns.set e.1 ((ns.getD e.1 []) ++ [e.2])).set e.2
    (((ns.set e.1 ((ns.getD e.1 []) ++ [e.2])).getD e.2 []) ++ [e.1])

/-- The `neighbors` index built in `Graph.__init__` by scanning `edges`,
starting from `num_vertices` empty lists. -/
def buildNeighbors (num_vertices : Nat) (edges : List (Nat × Nat)) : List (List Nat) :=
  edges.foldl addEdgeNbrs (List.replicate num_vertices [])

/-- The `Graph` object: vertex count, edge sequence, derived adjacency
index and derived catalogue of all possible edges. -/
structure Graph where
  num_vertices : Nat
  edges : List (Nat × Nat)
  neighbors : List (List Nat)
  all_possible_edges : List (Nat × Nat)
deriving DecidableEq

/-- The constructor `Graph(num_vertices, edges)`: stores the arguments and
derives `neighbors` and `all_possible_edges`. -/
def Graph.ofEdges (num_vertices : Nat) (edges : List (Nat × Nat)) : Graph :=
  ⟨num_vertices, edges, buildNeighbors num_vertices edges, allPossibleEdges num_vertices⟩

/-- Reading `self.neighbors[v]` (defaulting to `[]` out of range; the script
only reads in range). -/
def nbrGet (ns : List (List Nat)) (v : Nat) : List Nat := ns.getD v []

/- ## Catalogue of all possible edges (claim C6) -/

theorem allPossibleEdges_succ (n : Nat) :
    allPossibleEdges (n + 1) =
      allPossibleEdges n ++ (List.range n).map (fun b => (b, n)) := by
  unfold allPossibleEdges
  rw [List.range_succ, List.flatMap_append]
  simp

theorem allPossibleEdges_two_mul_length (n : Nat) :
    2 * (allPossibleEdges n).length + n = n * n := by
  induction n with
  | zero => rfl
  | succ m ih =>
      rw [allPossibleEdges_succ, List.length_append, List.length_map,
        List.length_range]
      have hexp : (m + 1) * (m + 1) = m * m + 2 * m + 1 := by ring
      omega

theorem mem_allPossibleEdges (n : Nat) (p : Nat × Nat) :
    p ∈ allPossibleEdges n ↔ p.1 < p.2 ∧ p.2 < n := by
  unfold allPossibleEdges
  simp only [List.mem_flatMap, List.mem_map, List.mem_range]
  constructor
  · rintro ⟨a, ha, b, hb, rfl⟩
    exact ⟨hb, ha⟩
  · rintro ⟨h1, h2⟩
    exact ⟨p.2, h2, p.1, h1, rfl⟩

theorem allPossibleEdges_nodup (n : Nat) : (allPossibleEdges n).Nodup := by
  induction n with
  | zero => exact List.nodup_nil
  | succ m ih =>
      rw [allPossibleEdges_succ]
      refine List.Nodup.append ih ?_ ?_
      · exact (List.nodup_range m).map (fun a b hab => by
          simpa using congrArg Prod.fst hab)
      · intro p hp hp'
        obtain ⟨b, hb, rfl⟩ := List.mem_map.mp hp'
        have := (mem_allPossibleEdges m (b, m)).mp hp
        omega

/-- C6: for every graph constructed with `num_vertices > 0`,
`all_possible_edges` has length `num_vertices*(num_vertices-1)/2`, contains
every pair `(b, a)` with `0 ≤ b < a < num_vertices` exactly once, and
contains nothing else. -/
theorem C6_all_possible_edges (n : Nat) (es : List (Nat × Nat)) (hn : 0 < n) :
    (Graph.ofEdges n es).all_possible_edges.length = n * (n - 1) / 2 ∧
    (Graph.ofEdges n es).all_possible_edges.Nodup ∧
    ∀ p : Nat × Nat,
      p ∈ (Graph.ofEdges n es).all_possible_edges ↔ p.1 < p.2 ∧ p.2 < n := by
  refine ⟨?_, allPossibleEdges_nodup n, mem_allPossibleEdges n⟩
  show (allPossibleEdges n).length = n * (n - 1) / 2
  have h := allPossibleEdges_two_mul_length n
  have hm : n * (n - 1) = n * n - n := by
    cases n with
    | zero => rfl
    | succ k =>
        rw [Nat.succ_sub_one]
        have : (k + 1) * (k + 1) = (k + 1) * k + (k + 1) := by ring
        omega
  omega

theorem C6_witness :
    0 < 3 ∧
    ((Graph.ofEdges 3 [(0, 1)]).all_possible_edges.length = 3 * (3 - 1) / 2 ∧
     (Graph.ofEdges 3 [(0, 1)]).all_possible_edges.Nodup ∧
     ∀ p : Nat × Nat,
       p ∈ (Graph.ofEdges 3 [(0, 1)]).all_possible_edges ↔ p.1 < p.2 ∧ p.2 < 3) :=
  ⟨by decide, C6_all_possible_edges 3 [(0, 1)] (by decide)⟩

/- ## Geographic graph factory (claim C3)

`Graph.make_graph(num_vertices, separation)` emits, for each vertex `i`,
an edge for each `j in range(i - separation, i)`: the pair `(i, j + n)`
when `j < 0` (wrap-around) and the pair `(i, j)` otherwise.  Since the
Python loop variable `j` ranges over possibly negative integers, the
emitted pairs are embedded as `Int × Int`. -/

/-- The edge list built by `Graph.make_graph(num_vertices, separation)`
before it is passed to the `Graph` constructor. -/
def make_graph_edges (n s : Nat) : List (Int × Int) :=
  (List.range n).flatMap (fun (i : Nat) =>
    (List.range s).map (fun (k : Nat) =>
      if (i : Int) - (s : Int) + (k : Int) < 0
      then ((i : Int), (i : Int) - (s : Int) + (k : Int) + (n : Int))
      else ((i : Int), (i : Int) - (s : Int) + (k : Int))))

/-- C3 counterexample: in `make_graph(6, 1)`, the generator step `i = 1`,
`k = 0` has `j = 0`, which is not a wrap-around (`¬ j < 0`), and its edge is
emitted as `(1, 0)` — a non-wrap edge that does not respect the ascending
`a < b` invariant, contradicting the claim that only wrap-around edges are
emitted out of ascending order. -/
theorem C3_counterexample :
    ¬ ((1 : Int) - 1 + 0 < 0) ∧
    (if (1 : Int) - 1 + 0 < 0
     then ((1 : Int), (1 : Int) - 1 + 0 + 6)
     else ((1 : Int), (1 : Int) - 1 + 0)) = ((1 : Int), (0 : Int)) ∧
    ((1 : Int), (0 : Int)) ∈ make_graph_edges 6 1 ∧
    ¬ ((1 : Int) < (0 : Int)) := by decide

/-- C3 (amended): in `make_graph(num_vertices, separation)` with
`separation < num_vertices`, every wrap-around edge (arising when the
preceding index `j` is negative) is emitted as the pair `(i, j + num_vertices)`
and in fact satisfies the ascending `a < b` order, while the remaining
(non-wrap) edges are emitted as `(i, j)` with `j < i`, i.e. in descending
order, violating the ascending-pair invariant; every emitted edge is of one
of these two shapes. -/
theorem C3_make_graph (n s : Nat) (hs : s < n) :
    (∀ i k : Nat, i < n → k < s →
      (((i : Int) - (s : Int) + (k : Int) < 0 →
         ((i : Int), (i : Int) - (s : Int) + (k : Int) + (n : Int)) ∈
             make_graph_edges n s ∧
         (i : Int) < (i : Int) - (s : Int) + (k : Int) + (n : Int)) ∧
       (0 ≤ (i : Int) - (s : Int) + (k : Int) →
         ((i : Int), (i : Int) - (s : Int) + (k : Int)) ∈ make_graph_edges n s ∧
         (i : Int) - (s : Int) + (k : Int) < (i : Int)))) ∧
    (∀ e ∈ make_graph_edges n s,
      (0 ≤ e.2 ∧ e.2 < e.1) ∨ ((n : Int) - (s : Int) ≤ e.2 ∧ e.1 < e.2)) := by
  constructor
  · intro i k hi hk
    constructor
    · intro hj
      refine ⟨?_, by omega⟩
      unfold make_graph_edges
      refine List.mem_flatMap.mpr ⟨i, List.mem_range.mpr hi, ?_⟩
      refine List.mem_map.mpr ⟨k, List.mem_range.mpr hk, ?_⟩
      rw [if_pos hj]
    · intro hj
      refine ⟨?_, by omega⟩
      unfold make_graph_edges
      refine List.mem_flatMap.mpr ⟨i, List.mem_range.mpr hi, ?_⟩
      refine List.mem_map.mpr ⟨k, List.mem_range.mpr hk, ?_⟩
      rw [if_neg (not_lt.mpr hj)]
  · intro e he
    unfold make_graph_edges at he
    obtain ⟨i, hi, he⟩ := List.mem_flatMap.mp he
    obtain ⟨k, hk, he⟩ := List.mem_map.mp he
    rw [List.mem_range] at hi hk
    by_cases hj : (i : Int) - (s : Int) + (k : Int) < 0
    · rw [if_pos hj] at he
      subst he
      right
      dsimp only
      omega
    · rw [if_neg hj] at he
      subst he
      left
      dsimp only
      omega

theorem C3_witness :
    (1 : Nat) < 6 ∧
    (((0 : Int), (5 : Int)) ∈ make_graph_edges 6 1 ∧ (0 : Int) < (5 : Int)) := by
  refine ⟨by decide, ?_, by decide⟩
  have h := ((C3_make_graph 6 1 (by decide)).1 0 0 (by decide) (by decide)).1 (by decide)
  have h1 := h.1
  norm_num at h1
  exact h1

/- ## Clustering coefficient (claims C2 and C10) -/

/-- The body of `Graph.clustering_coefficient`: the triple loop over the
outer vertex index `i`, the neighbor position `j`, and the neighbor position
`k < j`, updating the running value by `avg = (i*avg + 1)/(i + 1)` on a
closed triad and `avg = avg*i/(i + 1)` otherwise. -/
def clustering_coefficient (g : Graph) : ℚ :=
  (List.range g.num_vertices).foldl (fun avg (i : Nat) =>
    (List.range (nbrGet g.neighbors i).length).foldl (fun avg (j : Nat) =>
      (List.range j).foldl (fun avg (k : Nat) =>
        if (nbrGet g.neighbors i).getD k 0 ∈
            nbrGet g.neighbors ((nbrGet g.neighbors i).getD j 0)
        then ((i : ℚ) * avg + 1) / ((i : ℚ) + 1)
        else avg * (i : ℚ) / ((i : ℚ) + 1)) avg) avg) 0

/-- The update applied to the running value for one observation: the
observation carries the current outer vertex index and whether the triad
was closed. -/
def clusterStep (avg : ℚ) (x : Nat × Bool) : ℚ :=
  if x.2 then ((x.1 : ℚ) * avg + 1) / ((x.1 : ℚ) + 1)
  else avg * (x.1 : ℚ) / ((x.1 : ℚ) + 1)

/-- The sequence of observations made by `clustering_coefficient`, in
order: for each outer vertex index `i` from `0` to `num_vertices - 1` and
each pair of positions `k < j` in `neighbors[i]`, the pair of the outer
index `i` and the closed-triad test `neighbors[i][k] ∈
neighbors[neighbors[i][j]]`. -/
def clusteringObservations (g : Graph) : List (Nat × Bool) :=
  (List.range g.num_vertices).flatMap (fun (i : Nat) =>
    (List.range (nbrGet g.neighbors i).length).flatMap (fun (j : Nat) =>
      (List.range j).map (fun (k : Nat) =>
        (i, decide ((nbrGet g.neighbors i).getD k 0 ∈
              nbrGet g.neighbors ((nbrGet g.neighbors i).getD j 0))))))

theorem foldl_flatMap {α β σ : Type} (f : α → List β) (step : σ → β → σ)
    (l : List α) (s : σ) :
    (l.flatMap f).foldl step s = l.foldl (fun s a => (f a).foldl step s) s := by
  induction l generalizing s with
  | nil => rfl
  | cons a l ih => rw [List.flatMap_cons, List.foldl_append, List.foldl_cons, ih]

/-- The clustering coefficient equals the fold of `clusterStep` over the
observation sequence, starting from `0`: the recurrence is driven by the
current outer vertex index, not a count of observations. -/
theorem clustering_coefficient_eq (g : Graph) :
    clustering_coefficient g = (clusteringObservations g).foldl clusterStep 0 := by
  unfold clustering_coefficient clusteringObservations
  rw [foldl_flatMap]
  congr 1
  funext avg i
  rw [foldl_flatMap]
  congr 1
  funext avg j
  rw [List.foldl_map]
  congr 1
  funext avg k
  simp only [clusterStep, decide_eq_true_eq]

/-- C2: `clustering_coefficient()` iterates over the outer vertex index `i`
and all position pairs `k < j` in `neighbors[i]`, updating the running value
by `avg = (i*avg + 1)/(i + 1)` when `neighbors[i][k]` is a member of
`neighbors[neighbors[i][j]]` and by `avg = avg*i/(i + 1)` otherwise, where
`i` is the current outer vertex index. -/
theorem C2_clustering_recurrence (g : Graph) :
    clustering_coefficient g = (clusteringObservations g).foldl clusterStep 0 :=
  clustering_coefficient_eq g

theorem clusterStep_bounds (avg : ℚ) (x : Nat × Bool)
    (h0 : 0 ≤ avg) (h1 : avg ≤ 1) :
    0 ≤ clusterStep avg x ∧ clusterStep avg x ≤ 1 := by
  have hi : (0 : ℚ) ≤ (x.1 : ℚ) := Nat.cast_nonneg x.1
  have hpos : (0 : ℚ) < (x.1 : ℚ) + 1 := by linarith
  unfold clusterStep
  by_cases hb : x.2 = true
  · rw [if_pos hb]
    constructor
    · apply div_nonneg _ (le_of_lt hpos)
      nlinarith
    · rw [div_le_one hpos]
      nlinarith
  · rw [if_neg hb]
    constructor
    · apply div_nonneg _ (le_of_lt hpos)
      nlinarith
    · rw [div_le_one hpos]
      nlinarith

theorem foldl_clusterStep_bounds (l : List (Nat × Bool)) :
    ∀ avg : ℚ, 0 ≤ avg → avg ≤ 1 →
      0 ≤ l.foldl clusterStep avg ∧ l.foldl clusterStep avg ≤ 1 := by
  induction l with
  | nil => exact fun avg h0 h1 => ⟨h0, h1⟩
  | cons x l ih =>
      intro avg h0 h1
      rw [List.foldl_cons]
      obtain ⟨h0', h1'⟩ := clusterStep_bounds avg x h0 h1
      exact ih _ h0' h1'

/-- C10: for every graph, the value returned by `clustering_coefficient()`
lies in the closed interval `[0, 1]`: each recurrence step maps a value in
`[0, 1]` back into `[0, 1]`, starting from `0`. -/
theorem C10_clustering_in_unit_interval (g : Graph) :
    0 ≤ clustering_coefficient g ∧ clustering_coefficient g ≤ 1 := by
  rw [clustering_coefficient_eq]
  exact foldl_clusterStep_bounds (clusteringObservations g) 0 le_rfl (by norm_num)

/- ## The adjacency index (claim C7) -/

theorem nbrGet_set (ns : List (List Nat)) (i : Nat) (a : List Nat) (v : Nat)
    (hi : i < ns.length) :
    nbrGet (ns.set i a) v = if v = i then a else nbrGet ns v := by
  unfold nbrGet
  by_cases hv : v = i
  · subst hv
    rw [if_pos rfl, List.getD_eq_getElem?_getD, List.getElem?_set_eq_of_lt a hi]
    rfl
  · rw [if_neg hv, List.getD_eq_getElem?_getD,
      List.getElem?_set_ne (fun h => hv h.symm), ← List.getD_eq_getElem?_getD]

theorem addEdgeNbrs_length (ns : List (List Nat)) (e : Nat × Nat) :
    (addEdgeNbrs ns e).length = ns.length := by
  unfold addEdgeNbrs
  rw [List.length_set, List.length_set]

theorem mem_addEdgeNbrs (ns : List (List Nat)) (e : Nat × Nat)
    (h1 : e.1 < ns.length) (h2 : e.2 < ns.length) (u v : Nat) :
    u ∈ nbrGet (addEdgeNbrs ns e) v ↔
      u ∈ nbrGet ns v ∨ (v = e.1 ∧ u = e.2) ∨ (v = e.2 ∧ u = e.1) := by
  have hA : nbrGet (addEdgeNbrs ns e) v =
      if v = e.2
      then nbrGet (ns.set e.1 ((nbrGet ns e.1) ++ [e.2])) e.2 ++ [e.1]
      else nbrGet (ns.set e.1 ((nbrGet ns e.1) ++ [e.2])) v := by
    unfold addEdgeNbrs
    exact nbrGet_set _ _ _ _ (by rw [List.length_set]; exact h2)
  have hB : ∀ w, nbrGet (ns.set e.1 ((nbrGet ns e.1) ++ [e.2])) w =
      if w = e.1 then nbrGet ns e.1 ++ [e.2] else nbrGet ns w :=
    fun w => nbrGet_set _ _ _ _ h1
  rw [hA]
  by_cases hv2 : v = e.2
  · rw [if_pos hv2, hB e.2, hv2]
    by_cases h21 : e.2 = e.1
    · rw [if_pos h21, h21]
      simp only [List.mem_append, List.mem_singleton, eq_self_iff_true, true_and]
      tauto
    · rw [if_neg h21]
      simp only [List.mem_append, List.mem_singleton, eq_self_iff_true, true_and]
      tauto
  · rw [if_neg hv2, hB v]
    by_cases hv1 : v = e.1
    · rw [hv1] at hv2
      rw [if_pos hv1, hv1]
      simp only [List.mem_append, List.mem_singleton, eq_self_iff_true, true_and]
      tauto
    · rw [if_neg hv1]
      tauto

theorem foldl_addEdgeNbrs_length (es : List (Nat × Nat)) :
    ∀ acc : List (List Nat), (es.foldl addEdgeNbrs acc).length = acc.length := by
  induction es with
  | nil => exact fun acc => rfl
  | cons e es ih =>
      intro acc
      rw [List.foldl_cons, ih, addEdgeNbrs_length]

theorem mem_foldl_addEdgeNbrs (n u v : Nat) :
    ∀ es : List (Nat × Nat), (∀ e ∈ es, e.1 < n ∧ e.2 < n) →
    ∀ acc : List (List Nat), acc.length = n →
      (u ∈ nbrGet (es.foldl addEdgeNbrs acc) v ↔
        u ∈ nbrGet acc v ∨ (v, u) ∈ es ∨ (u, v) ∈ es) := by
  intro es
  induction es with
  | nil => intro _ acc _; simp
  | cons e es ih =>
      intro hwf acc hacc
      rw [List.foldl_cons]
      have he := hwf e (List.mem_cons_self e es)
      have ih' := ih (fun e' he' => hwf e' (List.mem_cons_of_mem e he'))
        (addEdgeNbrs acc e) (by rw [addEdgeNbrs_length, hacc])
      rw [ih', mem_addEdgeNbrs acc e (hacc ▸ he.1) (hacc ▸ he.2) u v]
      simp only [List.mem_cons, Prod.ext_iff]
      tauto

theorem nbrGet_replicate (n v : Nat) :
    nbrGet (List.replicate n []) v = [] := by
  unfold nbrGet
  rw [List.getD_eq_getElem?_getD, List.getElem?_replicate]
  split <;> rfl

/-- Membership in the constructed adjacency index is exactly: some edge
joins the two vertices in either orientation. -/
theorem mem_buildNeighbors (n : Nat) (es : List (Nat × Nat))
    (hwf : ∀ e ∈ es, e.1 < n ∧ e.2 < n) (u v : Nat) :
    u ∈ nbrGet (buildNeighbors n es) v ↔ (v, u) ∈ es ∨ (u, v) ∈ es := by
  unfold buildNeighbors
  rw [mem_foldl_addEdgeNbrs n u v es hwf (List.replicate n [])
    (List.length_replicate ..), nbrGet_replicate]
  simp

/-- C7: for every graph constructed from an edge sequence with endpoints in
range, `neighbors[v]` contains `u` iff `neighbors[u]` contains `v`, and
`neighbors` is exactly the symmetric closure of `edges`. -/
theorem C7_neighbors_symmetric_closure (n : Nat) (es : List (Nat × Nat))
    (hwf : ∀ e ∈ es, e.1 < n ∧ e.2 < n) (u v : Nat) :
    (u ∈ nbrGet (Graph.ofEdges n es).neighbors v ↔
      v ∈ nbrGet (Graph.ofEdges n es).neighbors u) ∧
    (u ∈ nbrGet (Graph.ofEdges n es).neighbors v ↔ (v, u) ∈ es ∨ (u, v) ∈ es) := by
  have h1 := mem_buildNeighbors n es hwf u v
  have h2 := mem_buildNeighbors n es hwf v u
  constructor
  · rw [show (Graph.ofEdges n es).neighbors = buildNeighbors n es from rfl, h1, h2]
    tauto
  · exact h1

/- ## Path explorer: breadth-first shortest paths

`Graph.shortest_path(v1)`: a FIFO queue seeded with `(v1, 0)` and a
mapping `shortest_lengths` (insertion-ordered dictionary, embedded as an
association list) seeded with `v1 ↦ 0`; each dequeued `(v, dv)` enqueues
every not-yet-seen neighbor with distance `dv + 1` and records it.  The
`while` loop is given fuel; `bfsFuel` below is large enough that the fuel
never runs out (each loop iteration consumes one queue entry and every
vertex is enqueued at most once). -/

/-- One neighbor visit: `if not (neighbor in shortest_lengths):
queue.put((neighbor, v[1] + 1)); shortest_lengths[neighbor] = v[1] + 1`. -/
def bfsInsert (d : Nat) (qs : List (Nat × Nat) × List (Nat × Nat)) (nb : Nat) :
    List (Nat × Nat) × List (Nat × Nat) :=
  if ((qs.2).lookup nb).isSome then qs
  else (qs.1 ++ [(nb, d)], qs.2 ++ [(nb, d)])

/-- The BFS `while` loop: dequeue the front pair, visit its neighbors,
repeat; return the mapping when the queue is empty (or the fuel runs out,
which `bfsFuel` prevents). -/
def bfsLoop (ns : List (List Nat)) :
    Nat → List (Nat × Nat) → List (Nat × Nat) → List (Nat × Nat)
  | 0, _, seen => seen
  | _ + 1, [], seen => seen
  | fuel + 1, (v, dv) :: rest, seen =>
      bfsLoop ns fuel ((nbrGet ns v).foldl (bfsInsert (dv + 1)) (rest, seen)).1
        ((nbrGet ns v).foldl (bfsInsert (dv + 1)) (rest, seen)).2

/-- Total length of all neighbor lists. -/
def totalNbrLen (ns : List (List Nat)) : Nat := (ns.map List.length).sum

/-- Enough fuel for the BFS loop: each vertex ever enqueued is recorded in
the mapping exactly once, and recorded keys are drawn from the source
vertex and the neighbor lists. -/
def bfsFuel (ns : List (List Nat)) : Nat := 2 * (1 + totalNbrLen ns) + 1

/-- `Graph.shortest_path(v1)`: run the BFS loop from the seeded state and
return the mapping from each reached vertex to its shortest distance. -/
def shortest_path (g : Graph) (v1 : Nat) : List (Nat × Nat) :=
  bfsLoop g.neighbors (bfsFuel g.neighbors) [(v1, 0)] [(v1, 0)]

/-- The entries freshly appended by one neighbor-visiting pass: the
neighbors not yet recorded, in order, each with the new distance, each
recorded immediately so later duplicates in the same pass are skipped. -/
def bfsNew (s : List (Nat × Nat)) (d : Nat) : List Nat → List (Nat × Nat)
  | [] => []
  | x :: xs =>
      if (s.lookup x).isSome then bfsNew s d xs
      else (x, d) :: bfsNew (s ++ [(x, d)]) d xs

theorem bfsInsert_foldl (d : Nat) :
    ∀ (l : List Nat) (q s : List (Nat × Nat)),
      l.foldl (bfsInsert d) (q, s) = (q ++ bfsNew s d l, s ++ bfsNew s d l) := by
  intro l
  induction l with
  | nil => intro q s; simp [bfsNew]
  | cons x xs ih =>
      intro q s
      rw [List.foldl_cons]
      unfold bfsNew
      by_cases hm : (s.lookup x).isSome
      · rw [if_pos hm]
        have hins : bfsInsert d (q, s) x = (q, s) := by
          unfold bfsInsert
          rw [if_pos hm]
        rw [hins, ih q s]
      · rw [if_neg hm]
        have hins : bfsInsert d (q, s) x = (q ++ [(x, d)], s ++ [(x, d)]) := by
          unfold bfsInsert
          rw [if_neg hm]
        rw [hins, ih (q ++ [(x, d)]) (s ++ [(x, d)])]
        simp

theorem bfsLoop_append (ns : List (List Nat)) :
    ∀ (fuel : Nat) (q s : List (Nat × Nat)),
      ∃ t, bfsLoop ns fuel q s = s ++ t := by
  intro fuel
  induction fuel with
  | zero => intro q s; exact ⟨[], (List.append_nil s).symm⟩
  | succ f ih =>
      intro q s
      cases q with
      | nil => exact ⟨[], (List.append_nil s).symm⟩
      | cons vd rest =>
          obtain ⟨v, dv⟩ := vd
          show ∃ t, bfsLoop ns f _ _ = s ++ t
          rw [bfsInsert_foldl (dv + 1) (nbrGet ns v) rest s]
          obtain ⟨t', ht'⟩ := ih (rest ++ bfsNew s (dv + 1) (nbrGet ns v))
            (s ++ bfsNew s (dv + 1) (nbrGet ns v))
          exact ⟨bfsNew s (dv + 1) (nbrGet ns v) ++ t', by rw [ht', List.append_assoc]⟩

/-- The source vertex is always recorded at distance `0`: the seed entry is
first in the mapping and entries are only ever appended. -/
theorem shortest_path_self (g : Graph) (v : Nat) :
    (shortest_path g v).lookup v = some 0 := by
  obtain ⟨t, ht⟩ := bfsLoop_append g.neighbors (bfsFuel g.neighbors)
    [(v, 0)] [(v, 0)]
  unfold shortest_path
  rw [ht]
  simp [List.lookup]

/- ## Sampled average shortest path (claim C4)

`Graph.shortest_path_len_random()`: 20 random starting vertices (the
`rand.randint(0, num_vertices - 1)` results are the oracle `verts`); for
each, the BFS mapping is computed and the running average is updated with
`avg = (avg*count + sp[v2])/(count + 1)` for every `v2 in
range(num_vertices)` present in the mapping — including `v2 == v1`. -/

/-- `Graph.shortest_path_len_random()` with the sampled source vertices
supplied by the oracle `verts`. -/
def shortest_path_len_random (g : Graph) (verts : Nat → Nat) : ℚ :=
  ((List.range 20).foldl (fun (ac : ℚ × Nat) i =>
    (List.range g.num_vertices).foldl (fun (ac : ℚ × Nat) v2 =>
      match (shortest_path g (verts i)).lookup v2 with
      | some dist => ((ac.1 * (ac.2 : ℚ) + (dist : ℚ)) / ((ac.2 : ℚ) + 1), ac.2 + 1)
      | none => ac) ac) ((0 : ℚ), (0 : Nat))).1

/-- The variant the claim describes: identical, except that the inner loop
skips the sampled source vertex itself (`v2 = verts i`). -/
def shortest_path_len_random_distinct (g : Graph) (verts : Nat → Nat) : ℚ :=
  ((List.range 20).foldl (fun (ac : ℚ × Nat) i =>
    (List.range g.num_vertices).foldl (fun (ac : ℚ × Nat) v2 =>
      if v2 = verts i then ac
      else
        match (shortest_path g (verts i)).lookup v2 with
        | some dist => ((ac.1 * (ac.2 : ℚ) + (dist : ℚ)) / ((ac.2 : ℚ) + 1), ac.2 + 1)
        | none => ac) ac) ((0 : ℚ), (0 : Nat))).1

/-- One incremental-mean update. -/
def avgStep (ac : ℚ × Nat) (d : ℚ) : ℚ × Nat :=
  ((ac.1 * (ac.2 : ℚ) + d) / ((ac.2 : ℚ) + 1), ac.2 + 1)

/-- Arithmetic mean of a list of rationals (`0` for the empty list). -/
def listMean (l : List ℚ) : ℚ := if l.length = 0 then 0 else l.sum / (l.length : ℚ)

/-- The distances accumulated by `shortest_path_len_random`: for each of
the 20 sampled sources, the distances to every vertex of `0..n-1` present
in the BFS mapping (the source itself included, at distance 0), in order. -/
def spDistList (g : Graph) (verts : Nat → Nat) : List ℚ :=
  (List.range 20).flatMap (fun i =>
    (List.range g.num_vertices).filterMap (fun v2 =>
      ((shortest_path g (verts i)).lookup v2).map (fun (d : Nat) => (d : ℚ))))

/-- The distances the claim describes: as `spDistList` but with the source
vertex itself skipped. -/
def spDistListDistinct (g : Graph) (verts : Nat → Nat) : List ℚ :=
  (List.range 20).flatMap (fun i =>
    (List.range g.num_vertices).filterMap (fun v2 =>
      (if v2 = verts i then none
       else (shortest_path g (verts i)).lookup v2).map (fun (d : Nat) => (d : ℚ))))

theorem foldl_match_filterMap {α β σ : Type} (f : α → Option β) (step : σ → β → σ) :
    ∀ (l : List α) (s : σ),
      l.foldl (fun s x =>
        match f x with
        | some y => step s y
        | none => s) s = (l.filterMap f).foldl step s := by
  intro l
  induction l with
  | nil => intro s; rfl
  | cons x l ih =>
      intro s
      rw [List.foldl_cons, List.filterMap_cons]
      cases hfx : f x with
      | none => simp only [hfx]; exact ih s
      | some y => simp only [hfx]; rw [List.foldl_cons]; exact ih (step s y)

theorem foldl_avgStep (l : List ℚ) :
    ∀ (a : ℚ) (c : Nat), 0 < c →
      l.foldl avgStep (a, c) =
        ((a * (c : ℚ) + l.sum) / ((c : ℚ) + (l.length : ℚ)), c + l.length) := by
  induction l with
  | nil =>
      intro a c hc
      have hc' : ((c : ℚ)) ≠ 0 := Nat.cast_ne_zero.mpr hc.ne'
      rw [List.foldl_nil, List.sum_nil, List.length_nil, Prod.mk.injEq]
      constructor
      · rw [add_zero, Nat.cast_zero, add_zero, mul_div_cancel_right₀ a hc']
      · rw [Nat.add_zero]
  | cons d l ih =>
      intro a c hc
      rw [List.foldl_cons]
      have h1 : avgStep (a, c) d = ((a * (c : ℚ) + d) / ((c : ℚ) + 1), c + 1) := rfl
      rw [h1, ih _ (c + 1) (Nat.succ_pos c), Prod.mk.injEq]
      have hcc : ((c : ℚ) + 1) ≠ 0 := by positivity
      constructor
      · rw [List.sum_cons, List.length_cons]
        push_cast
        rw [div_mul_cancel₀ _ hcc]
        ring_nf
      · rw [List.length_cons]
        omega

/-- The incremental-mean fold started from `(0, 0)` computes the arithmetic
mean of the accumulated values. -/
theorem foldl_avgStep_zero (l : List ℚ) :
    (l.foldl avgStep ((0 : ℚ), (0 : Nat))).1 = listMean l := by
  cases l with
  | nil => rfl
  | cons d l =>
      rw [List.foldl_cons]
      have h0 : avgStep ((0 : ℚ), (0 : Nat)) d = (d, 1) := by
        unfold avgStep
        rw [Prod.mk.injEq]
        norm_num
      rw [h0, foldl_avgStep l d 1 (by norm_num)]
      unfold listMean
      rw [if_neg (by simp)]
      rw [List.sum_cons, List.length_cons]
      push_cast
      ring_nf

/-- The nested sampling fold equals the arithmetic mean of the flattened
distance list, for any per-sample inclusion function `f`. -/
theorem spFold_eq_mean (n : Nat) (f : Nat → Nat → Option Nat) :
    ((List.range 20).foldl (fun (ac : ℚ × Nat) i =>
        (List.range n).foldl (fun (ac : ℚ × Nat) v2 =>
          match f i v2 with
          | some d => ((ac.1 * (ac.2 : ℚ) + (d : ℚ)) / ((ac.2 : ℚ) + 1), ac.2 + 1)
          | none => ac) ac) ((0 : ℚ), (0 : Nat))).1 =
      listMean ((List.range 20).flatMap (fun i =>
        (List.range n).filterMap (fun v2 => (f i v2).map (fun (d : Nat) => (d : ℚ))))) := by
  have hstep : ∀ (i : Nat) (ac : ℚ × Nat),
      (List.range n).foldl (fun (ac : ℚ × Nat) v2 =>
        match f i v2 with
        | some d => ((ac.1 * (ac.2 : ℚ) + (d : ℚ)) / ((ac.2 : ℚ) + 1), ac.2 + 1)
        | none => ac) ac =
      ((List.range n).filterMap
        (fun v2 => (f i v2).map (fun (d : Nat) => (d : ℚ)))).foldl avgStep ac := by
    intro i ac
    rw [← foldl_match_filterMap (fun v2 => (f i v2).map (fun (d : Nat) => (d : ℚ))) avgStep]
    congr 1
    funext ac v2
    cases f i v2 <;> rfl
  have hflat : (List.range 20).foldl (fun (ac : ℚ × Nat) i =>
      (List.range n).foldl (fun (ac : ℚ × Nat) v2 =>
        match f i v2 with
        | some d => ((ac.1 * (ac.2 : ℚ) + (d : ℚ)) / ((ac.2 : ℚ) + 1), ac.2 + 1)
        | none => ac) ac) ((0 : ℚ), (0 : Nat)) =
      ((List.range 20).flatMap (fun i =>
        (List.range n).filterMap
          (fun v2 => (f i v2).map (fun (d : Nat) => (d : ℚ))))).foldl avgStep
        ((0 : ℚ), (0 : Nat)) := by
    rw [foldl_flatMap]
    congr 1
    funext ac i
    exact hstep i ac
  rw [hflat, foldl_avgStep_zero]

/-- C4 (amended): `shortest_path_len_random()` runs `shortest_path` from
exactly 20 oracle-chosen source vertices and returns the arithmetic mean of
the distances from each sampled source to every vertex of
`0..num_vertices-1` that is reachable from it — including the source
itself, which is always present in the mapping at distance `0` — skipping
unreachable vertices (`0` when no distance is accumulated at all). -/
theorem shortest_path_len_random_eq_mean (g : Graph) (verts : Nat → Nat) :
    shortest_path_len_random g verts = listMean (spDistList g verts) := by
  unfold shortest_path_len_random spDistList
  exact spFold_eq_mean g.num_vertices
    (fun i v2 => (shortest_path g (verts i)).lookup v2)

theorem C4_sampled_mean (g : Graph) (verts : Nat → Nat) :
    shortest_path_len_random g verts = listMean (spDistList g verts) ∧
    ∀ i : Nat, (shortest_path g (verts i)).lookup (verts i) = some 0 := by
  constructor
  · exact shortest_path_len_random_eq_mean g verts
  · intro i
    exact shortest_path_self g (verts i)

/-- The claim-described variant equals the mean over the distances with the
source vertex itself excluded. -/
theorem shortest_path_len_random_distinct_eq (g : Graph) (verts : Nat → Nat) :
    shortest_path_len_random_distinct g verts = listMean (spDistListDistinct g verts) := by
  unfold shortest_path_len_random_distinct spDistListDistinct
  have h := spFold_eq_mean g.num_vertices
    (fun i v2 => if v2 = verts i then none
      else (shortest_path g (verts i)).lookup v2)
  have hconv : (fun (ac : ℚ × Nat) (i : Nat) =>
      (List.range g.num_vertices).foldl (fun (ac : ℚ × Nat) v2 =>
        if v2 = verts i then ac
        else
          match (shortest_path g (verts i)).lookup v2 with
          | some dist =>
              ((ac.1 * (ac.2 : ℚ) + (dist : ℚ)) / ((ac.2 : ℚ) + 1), ac.2 + 1)
          | none => ac) ac) =
      (fun (ac : ℚ × Nat) (i : Nat) =>
        (List.range g.num_vertices).foldl (fun (ac : ℚ × Nat) v2 =>
          match (if v2 = verts i then none
            else (shortest_path g (verts i)).lookup v2) with
          | some d => ((ac.1 * (ac.2 : ℚ) + (d : ℚ)) / ((ac.2 : ℚ) + 1), ac.2 + 1)
          | none => ac) ac) := by
    funext ac i
    congr 1
    funext ac v2
    by_cases hv : v2 = verts i
    · rw [if_pos hv, if_pos hv]
    · rw [if_neg hv, if_neg hv]
  rw [hconv]
  exact h

/-- Sum and length of a constant repetition produced by `flatMap` over
`List.range`. -/
theorem flatMap_const_sum_length (L : List ℚ) :
    ∀ n : Nat, ((List.range n).flatMap (fun _ => L)).sum = (n : ℚ) * L.sum ∧
      ((List.range n).flatMap (fun _ => L)).length = n * L.length := by
  intro n
  induction n with
  | zero => simp
  | succ m ih =>
      rw [List.range_succ, List.flatMap_append]
      constructor
      · rw [List.sum_append, ih.1]
        simp
        ring
      · rw [List.length_append, ih.2]
        simp
        ring

/-- C4 counterexample: on the two-vertex graph with the single edge
`(0, 1)`, sampling source `0` every time, the inner loop of
`shortest_path_len_random` includes `v2 = 0` — the source itself, at
distance `0` — so the code returns `1/2`, while the mean over the vertices
distinct from the source (as the claim states) is `1`. -/
theorem C4_counterexample :
    shortest_path_len_random (Graph.ofEdges 2 [(0, 1)]) (fun _ => 0) = 1 / 2 ∧
    shortest_path_len_random_distinct (Graph.ofEdges 2 [(0, 1)]) (fun _ => 0) = 1 ∧
    ((1 : ℚ) / 2 ≠ 1) := by
  have h3 : spDistList (Graph.ofEdges 2 [(0, 1)]) (fun _ => 0) =
      (List.range 20).flatMap (fun _ => [((0 : Nat) : ℚ), ((1 : Nat) : ℚ)]) := by
    decide
  have h4 : spDistListDistinct (Graph.ofEdges 2 [(0, 1)]) (fun _ => 0) =
      (List.range 20).flatMap (fun _ => [((1 : Nat) : ℚ)]) := by
    decide
  refine ⟨?_, ?_, by norm_num⟩
  · rw [shortest_path_len_random_eq_mean, h3]
    have hs := flatMap_const_sum_length [((0 : Nat) : ℚ), ((1 : Nat) : ℚ)] 20
    unfold listMean
    rw [if_neg (by rw [hs.2]; norm_num), hs.1, hs.2]
    push_cast
    norm_num
  · rw [shortest_path_len_random_distinct_eq, h4]
    have hs := flatMap_const_sum_length [((1 : Nat) : ℚ)] 20
    unfold listMean
    rw [if_neg (by rw [hs.2]; norm_num), hs.1, hs.2]
    push_cast
    norm_num

/- ## Rewiring generator (claims C1 and C8)

`Graph.randomize_graph(p)`: `new_edges = list(self.edges)`; for each index
`i`, if `rand.random() < p`, draw `all_possible_edges[rand.randint(0, len-1)]`
repeatedly until the candidate is not already in `new_edges`, then assign
`new_edges[i]`.  The call sequence of `rand.random()` is the oracle
`randoms` (one value per edge index) and the `rand.randint` results for edge
`i` are the oracle stream `draws i`.  The unbounded rejection loop carries
explicit fuel; `none` marks a run the script would not finish. -/

/-- The rejection loop: try the candidates `all_possible_edges[draws k]`,
`all_possible_edges[draws (k+1)]`, … until one is not in the current edge
list. -/
def drawFresh (ape : List (Nat × Nat)) (cands : Nat → Nat)
    (cur : List (Nat × Nat)) : Nat → Nat → Option (Nat × Nat)
  | 0, _ => none
  | fuel + 1, k =>
      if ape.getD (cands k) (0, 0) ∈ cur
      then drawFresh ape cands cur fuel (k + 1)
      else some (ape.getD (cands k) (0, 0))

/-- The edge-replacement loop of `randomize_graph`, producing the final
`new_edges` list. -/
def randomize_edges (ape edges : List (Nat × Nat)) (p : ℚ) (randoms : Nat → ℚ)
    (draws : Nat → Nat → Nat) (fuel : Nat) : Option (List (Nat × Nat)) :=
  (List.range edges.length).foldl (fun acc i =>
    acc.bind (fun cur =>
      if randoms i < p
      then (drawFresh ape (draws i) cur fuel 0).map (fun e => cur.set i e)
      else some cur)) (some edges)

/-- `Graph.randomize_graph(p)`: run the replacement loop and build a fresh
`Graph` over the same vertex count from the resulting edge list. -/
def randomize_graph (g : Graph) (p : ℚ) (randoms : Nat → ℚ)
    (draws : Nat → Nat → Nat) (fuel : Nat) : Option Graph :=
  (randomize_edges g.all_possible_edges g.edges p randoms draws fuel).map
    (Graph.ofEdges g.num_vertices)

/-- The replacement loop with the probability test forced to succeed: every
edge is replaced by a freshly drawn non-duplicate edge. -/
def randomize_all_edges (ape edges : List (Nat × Nat))
    (draws : Nat → Nat → Nat) (fuel : Nat) : Option (List (Nat × Nat)) :=
  (List.range edges.length).foldl (fun acc i =>
    acc.bind (fun cur =>
      (drawFresh ape (draws i) cur fuel 0).map (fun e => cur.set i e)))
    (some edges)

theorem drawFresh_not_mem (ape : List (Nat × Nat)) (cands : Nat → Nat)
    (cur : List (Nat × Nat)) :
    ∀ fuel k e, drawFresh ape cands cur fuel k = some e → e ∉ cur := by
  intro fuel
  induction fuel with
  | zero => intro k e h; cases h
  | succ f ih =>
      intro k e h
      unfold drawFresh at h
      by_cases hm : ape.getD (cands k) (0, 0) ∈ cur
      · rw [if_pos hm] at h
        exact ih (k + 1) e h
      · rw [if_neg hm] at h
        cases h
        exact hm

theorem nodup_set_of_not_mem (e : Nat × Nat) :
    ∀ (l : List (Nat × Nat)) (i : Nat), l.Nodup → e ∉ l → (l.set i e).Nodup := by
  intro l
  induction l with
  | nil => intro i _ _; exact List.nodup_nil
  | cons x xs ih =>
      intro i hnd hne
      rw [List.mem_cons, not_or] at hne
      rw [List.nodup_cons] at hnd
      cases i with
      | zero =>
          rw [List.set_cons_zero, List.nodup_cons]
          exact ⟨fun hc => hne.2 hc, hnd.2⟩
      | succ j =>
          rw [List.set_cons_succ, List.nodup_cons]
          refine ⟨fun hc => ?_, ih j hnd.2 hne.2⟩
          rcases List.mem_or_eq_of_mem_set hc with h | h
          · exact hnd.1 h
          · exact hne.1 h.symm

theorem randomize_edges_aux_nodup (ape : List (Nat × Nat)) (p : ℚ)
    (randoms : Nat → ℚ) (draws : Nat → Nat → Nat) (fuel : Nat) :
    ∀ (l : List Nat) (acc : Option (List (Nat × Nat))),
      (∀ cur, acc = some cur → cur.Nodup) →
      ∀ res,
        l.foldl (fun acc i =>
          acc.bind (fun cur =>
            if randoms i < p
            then (drawFresh ape (draws i) cur fuel 0).map (fun e => cur.set i e)
            else some cur)) acc = some res →
        res.Nodup := by
  intro l
  induction l with
  | nil => intro acc hacc res h; exact hacc res h
  | cons i l ih =>
      intro acc hacc res h
      rw [List.foldl_cons] at h
      refine ih _ ?_ res h
      intro cur' hcur'
      cases acc with
      | none => cases hcur'
      | some cur =>
          have hnd := hacc cur rfl
          rw [Option.some_bind] at hcur'
          by_cases hp : randoms i < p
          · rw [if_pos hp] at hcur'
            obtain ⟨e, he, rfl⟩ := Option.map_eq_some'.mp hcur'
            exact nodup_set_of_not_mem e cur i hnd
              (drawFresh_not_mem ape (draws i) cur fuel 0 e he)
          · rw [if_neg hp] at hcur'
            cases hcur'
            exact hnd

/-- C1 (amended): for every graph and every `p` in `[0, 1]`, a successful
run of `randomize_graph(p)` replaces each selected edge by a candidate drawn
from `all_possible_edges`, rejecting and redrawing any candidate already
present (as a pair, under the tuple equality the membership test uses) in
the evolving new edge sequence, and the returned graph's edge sequence
contains no duplicate pairs whenever the input edge sequence had none.
(Duplicates as unordered pairs can still arise when the input contains
non-canonically oriented edges; see the counterexample.) -/
theorem C1_no_duplicate_pairs (g : Graph) (p : ℚ) (hp : 0 ≤ p ∧ p ≤ 1)
    (randoms : Nat → ℚ) (draws : Nat → Nat → Nat) (fuel : Nat)
    (hnd : g.edges.Nodup) (g' : Graph)
    (h : randomize_graph g p randoms draws fuel = some g') :
    g'.edges.Nodup := by
  unfold randomize_graph at h
  obtain ⟨es, hes, rfl⟩ := Option.map_eq_some'.mp h
  unfold randomize_edges at hes
  exact randomize_edges_aux_nodup g.all_possible_edges p randoms draws fuel
    (List.range g.edges.length) (some g.edges)
    (fun cur hc => by cases hc; exact hnd) es hes

theorem C1_witness :
    ((0 : ℚ) ≤ 1 ∧ (1 : ℚ) ≤ 1) ∧
    ([((1 : Nat), (0 : Nat)), (0, 2)]).Nodup ∧
    randomize_graph (Graph.ofEdges 3 [(1, 0), (0, 2)]) 1 (fun _ => 0)
        (fun i k => i + k) 3 = some (Graph.ofEdges 3 [(0, 1), (1, 2)]) ∧
    (Graph.ofEdges 3 [((0 : Nat), (1 : Nat)), (1, 2)]).edges.Nodup := by
  refine ⟨⟨by norm_num, le_rfl⟩, by decide, by decide, ?_⟩
  exact C1_no_duplicate_pairs (Graph.ofEdges 3 [(1, 0), (0, 2)]) 1
    ⟨by norm_num, le_rfl⟩ (fun _ => 0) (fun i k => i + k) 3 (by decide) _ (by decide)

/-- Canonical (ascending) form of an edge, for stating duplicate-freedom of
unordered pairs. -/
def normEdge (e : Nat × Nat) : Nat × Nat := if e.1 ≤ e.2 then e else (e.2, e.1)

/-- C1 counterexample: the graph over 3 vertices with edges `[(1,0), (0,2)]`
has no duplicate edges as unordered pairs, `p = 1/4` lies in `[0,1]`, and a
run of `randomize_graph` replacing only the second edge draws the candidate
`(0,1)` — not detected as already present because the membership test uses
tuple equality against the non-canonical `(1,0)` — so the returned edge
sequence `[(1,0), (0,1)]` contains the unordered pair {0,1} twice. -/
theorem C1_counterexample :
    (([((1 : Nat), (0 : Nat)), (0, 2)]).map normEdge).Nodup ∧
    ((0 : ℚ) ≤ mkRat 1 4 ∧ mkRat 1 4 ≤ 1) ∧
    randomize_graph (Graph.ofEdges 3 [(1, 0), (0, 2)]) (mkRat 1 4)
        (fun i => if i = 0 then mkRat 1 2 else 0) (fun _ _ => 0) 3 =
      some (Graph.ofEdges 3 [(1, 0), (0, 1)]) ∧
    ¬ (((Graph.ofEdges 3 [((1 : Nat), (0 : Nat)), (0, 1)]).edges.map
        normEdge).Nodup) := by
  refine ⟨by decide, by decide, by decide, by decide⟩

/-- C8: with the random source's values in `[0, 1)` — as `rand.random()`
guarantees — `randomize_graph(0)` returns a graph whose edge sequence is
exactly the input's (no edge changed), and `randomize_graph(1)` runs the
replacement of every edge by a freshly drawn non-duplicate edge, regardless
of the values drawn from the random source. -/
theorem C8_extreme_probabilities (g : Graph) (randoms : Nat → ℚ)
    (draws : Nat → Nat → Nat) (fuel : Nat)
    (hr : ∀ i, 0 ≤ randoms i ∧ randoms i < 1) :
    randomize_graph g 0 randoms draws fuel =
      some (Graph.ofEdges g.num_vertices g.edges) ∧
    randomize_graph g 1 randoms draws fuel =
      (randomize_all_edges g.all_possible_edges g.edges draws fuel).map
        (Graph.ofEdges g.num_vertices) := by
  constructor
  · unfold randomize_graph randomize_edges
    have h1 : ∀ (l : List Nat) (acc : Option (List (Nat × Nat))),
        l.foldl (fun acc i =>
          acc.bind (fun cur =>
            if randoms i < 0
            then (drawFresh g.all_possible_edges (draws i) cur fuel 0).map
              (fun e => cur.set i e)
            else some cur)) acc = acc := by
      intro l
      induction l with
      | nil => intro acc; rfl
      | cons i l ih =>
          intro acc
          rw [List.foldl_cons]
          have hstep : (acc.bind (fun cur =>
              if randoms i < 0
              then (drawFresh g.all_possible_edges (draws i) cur fuel 0).map
                (fun e => cur.set i e)
              else some cur)) = acc := by
            have hni : ¬ (randoms i < 0) := not_lt.mpr (hr i).1
            cases acc with
            | none => rfl
            | some cur => simp [hni]
          rw [hstep, ih]
    rw [h1]
    rfl
  · unfold randomize_graph randomize_edges randomize_all_edges
    have h2 : (fun (acc : Option (List (Nat × Nat))) (i : Nat) =>
        acc.bind (fun cur =>
          if randoms i < 1
          then (drawFresh g.all_possible_edges (draws i) cur fuel 0).map
            (fun e => cur.set i e)
          else some cur)) =
        fun acc i =>
          acc.bind (fun cur =>
            (drawFresh g.all_possible_edges (draws i) cur fuel 0).map
              (fun e => cur.set i e)) := by
      funext acc i
      congr 1
      funext cur
      rw [if_pos (hr i).2]
    rw [h2]

theorem C8_witness :
    (∀ i : Nat, 0 ≤ (fun _ => (1 : ℚ) / 2) i ∧ (fun _ => (1 : ℚ) / 2) i < 1) ∧
    randomize_graph (Graph.ofEdges 3 [(1, 0), (0, 2)]) 0 (fun _ => (1 : ℚ) / 2)
        (fun _ _ => 0) 3 =
      some (Graph.ofEdges (Graph.ofEdges 3 [(1, 0), (0, 2)]).num_vertices
        (Graph.ofEdges 3 [(1, 0), (0, 2)]).edges) :=
  ⟨fun _ => ⟨by norm_num, by norm_num⟩,
    (C8_extreme_probabilities (Graph.ofEdges 3 [(1, 0), (0, 2)])
      (fun _ => (1 : ℚ) / 2) (fun _ _ => 0) 3
      (fun _ => ⟨by norm_num, by norm_num⟩)).1⟩

theorem C7_witness :
    (∀ e ∈ [((0 : Nat), (1 : Nat))], e.1 < 3 ∧ e.2 < 3) ∧
    ((1 ∈ nbrGet (Graph.ofEdges 3 [(0, 1)]).neighbors 0 ↔
      0 ∈ nbrGet (Graph.ofEdges 3 [(0, 1)]).neighbors 1) ∧
     (1 ∈ nbrGet (Graph.ofEdges 3 [(0, 1)]).neighbors 0 ↔
      (0, 1) ∈ [((0 : Nat), (1 : Nat))] ∨ (1, 0) ∈ [((0 : Nat), (1 : Nat))])) :=
  ⟨by decide, C7_neighbors_symmetric_closure 3 [(0, 1)] (by decide) 1 0⟩

/- ## Frame property of the rewiring generator (claim C9)

Python objects are mutable heap values: `Graph.randomize_graph` must not
mutate the receiver.  To state this, the lists owned by a `Graph` are
placed in an explicit heap of cells addressed by natural numbers.  The
method body copies `self.edges` into a freshly allocated cell
(`new_edges = list(self.edges)`), performs its index assignments on that
fresh cell only, and the `Graph(...)` constructor allocates fresh cells
for the derived lists while storing the `new_edges` reference itself.  -/

/-- A heap cell: either a list of edges or a list of neighbor lists. -/
inductive HCell where
  | elist : List (Nat × Nat) → HCell
  | nlist : List (List Nat) → HCell
deriving DecidableEq

/-- A heap: cell contents and the next fresh address. -/
structure PyHeap where
  mem : Nat → HCell
  next : Nat

/-- Overwrite one cell. -/
def PyHeap.write (h : PyHeap) (r : Nat) (c : HCell) : PyHeap :=
  ⟨fun x => if x = r then c else h.mem x, h.next⟩

/-- Allocate a fresh cell, returning the new heap and the fresh address. -/
def PyHeap.alloc (h : PyHeap) (c : HCell) : PyHeap × Nat :=
  (⟨fun x => if x = h.next then c else h.mem x, h.next + 1⟩, h.next)

/-- Read an edge-list cell. -/
def readE (h : PyHeap) (r : Nat) : List (Nat × Nat) :=
  match h.mem r with
  | .elist l => l
  | .nlist _ => []

/-- A `Graph` object as references into the heap: the vertex count and the
addresses of its `edges`, `neighbors` and `all_possible_edges` lists. -/
structure GraphRef where
  num_vertices : Nat
  edgesRef : Nat
  neighborsRef : Nat
  apeRef : Nat

/-- `Graph.__init__` at heap level: `self.edges = edges` stores the caller's
list reference unchanged, while `self.neighbors` and
`self.all_possible_edges` are freshly allocated cells holding the derived
lists. -/
def graphInitH (h : PyHeap) (n : Nat) (edgesRef : Nat) : PyHeap × GraphRef :=
  (((h.alloc (HCell.nlist (buildNeighbors n (readE h edgesRef)))).1.alloc
      (HCell.elist (allPossibleEdges n))).1,
   ⟨n, edgesRef,
    (h.alloc (HCell.nlist (buildNeighbors n (readE h edgesRef)))).2,
    ((h.alloc (HCell.nlist (buildNeighbors n (readE h edgesRef)))).1.alloc
      (HCell.elist (allPossibleEdges n))).2⟩)

/-- The replacement loop of `randomize_graph` at heap level: all writes go
to the fresh `new_edges` cell `newRef`; the duplicate test reads the
current contents of that cell.  `false` marks a run on which the rejection
loop would not terminate. -/
def randomizeLoopH (apeRef newRef : Nat) (p : ℚ) (randoms : Nat → ℚ)
    (draws : Nat → Nat → Nat) (fuel : Nat) : List Nat → PyHeap → PyHeap × Bool
  | [], h => (h, true)
  | i :: rest, h =>
      if randoms i < p then
        match drawFresh (readE h apeRef) (draws i) (readE h newRef) fuel 0 with
        | none => (h, false)
        | some e =>
            randomizeLoopH apeRef newRef p randoms draws fuel rest
              (h.write newRef (HCell.elist ((readE h newRef).set i e)))
      else randomizeLoopH apeRef newRef p randoms draws fuel rest h

/-- `Graph.randomize_graph(p)` at heap level: allocate the copy
`new_edges = list(self.edges)` at the fresh address `h.next`, run the
replacement loop on it, and construct the returned `Graph` from the fresh
cell. -/
def randomize_graphH (h : PyHeap) (g : GraphRef) (p : ℚ) (randoms : Nat → ℚ)
    (draws : Nat → Nat → Nat) (fuel : Nat) : PyHeap × Option GraphRef :=
  if (randomizeLoopH g.apeRef h.next p randoms draws fuel
      (List.range (readE h g.edgesRef).length)
      (h.alloc (HCell.elist (readE h g.edgesRef))).1).2
  then
    ((graphInitH (randomizeLoopH g.apeRef h.next p randoms draws fuel
        (List.range (readE h g.edgesRef).length)
        (h.alloc (HCell.elist (readE h g.edgesRef))).1).1 g.num_vertices h.next).1,
     some (graphInitH (randomizeLoopH g.apeRef h.next p randoms draws fuel
        (List.range (readE h g.edgesRef).length)
        (h.alloc (HCell.elist (readE h g.edgesRef))).1).1 g.num_vertices h.next).2)
  else
    ((randomizeLoopH g.apeRef h.next p randoms draws fuel
        (List.range (readE h g.edgesRef).length)
        (h.alloc (HCell.elist (readE h g.edgesRef))).1).1, none)

theorem PyHeap.write_mem_ne (h : PyHeap) (r : Nat) (c : HCell) (r' : Nat)
    (hne : r' ≠ r) : (h.write r c).mem r' = h.mem r' := by
  unfold PyHeap.write
  exact if_neg hne

theorem PyHeap.alloc_mem_lt (h : PyHeap) (c : HCell) (r' : Nat)
    (hr : r' < h.next) : ((h.alloc c).1).mem r' = h.mem r' := by
  unfold PyHeap.alloc
  exact if_neg (Nat.ne_of_lt hr)

theorem randomizeLoopH_mem (apeRef newRef : Nat) (p : ℚ) (randoms : Nat → ℚ)
    (draws : Nat → Nat → Nat) (fuel : Nat) :
    ∀ (l : List Nat) (h : PyHeap) (r : Nat), r ≠ newRef →
      (randomizeLoopH apeRef newRef p randoms draws fuel l h).1.mem r = h.mem r := by
  intro l
  induction l with
  | nil => intro h r _; rfl
  | cons i rest ih =>
      intro h r hr
      unfold randomizeLoopH
      by_cases hp : randoms i < p
      · rw [if_pos hp]
        cases hdf : drawFresh (readE h apeRef) (draws i) (readE h newRef) fuel 0 with
        | none => rfl
        | some e =>
            rw [ih _ r hr, PyHeap.write_mem_ne _ _ _ r hr]
      · rw [if_neg hp]
        exact ih h r hr

theorem randomizeLoopH_next (apeRef newRef : Nat) (p : ℚ) (randoms : Nat → ℚ)
    (draws : Nat → Nat → Nat) (fuel : Nat) :
    ∀ (l : List Nat) (h : PyHeap),
      (randomizeLoopH apeRef newRef p randoms draws fuel l h).1.next = h.next := by
  intro l
  induction l with
  | nil => intro h; rfl
  | cons i rest ih =>
      intro h
      unfold randomizeLoopH
      by_cases hp : randoms i < p
      · rw [if_pos hp]
        cases hdf : drawFresh (readE h apeRef) (draws i) (readE h newRef) fuel 0 with
        | none => rfl
        | some e => rw [ih]; rfl
      · rw [if_neg hp]
        exact ih h

/-- C9: `randomize_graph` never mutates the receiver: after the call the
cells holding the source graph's `edges`, `neighbors` and
`all_possible_edges` are exactly what they were (its `num_vertices` is an
immutable field of the reference value), and on success the returned value
is a freshly constructed `Graph` with the same vertex count, all of whose
list cells are fresh addresses. -/
theorem C9_randomize_frame (h : PyHeap) (g : GraphRef) (p : ℚ)
    (randoms : Nat → ℚ) (draws : Nat → Nat → Nat) (fuel : Nat)
    (he : g.edgesRef < h.next) (hn : g.neighborsRef < h.next)
    (ha : g.apeRef < h.next) :
    ((randomize_graphH h g p randoms draws fuel).1.mem g.edgesRef =
        h.mem g.edgesRef ∧
      (randomize_graphH h g p randoms draws fuel).1.mem g.neighborsRef =
        h.mem g.neighborsRef ∧
      (randomize_graphH h g p randoms draws fuel).1.mem g.apeRef =
        h.mem g.apeRef) ∧
    ∀ g', (randomize_graphH h g p randoms draws fuel).2 = some g' →
      g'.num_vertices = g.num_vertices ∧
      h.next ≤ g'.edgesRef ∧ h.next ≤ g'.neighborsRef ∧ h.next ≤ g'.apeRef := by
  have hmem : ∀ r : Nat, r < h.next →
      (randomize_graphH h g p randoms draws fuel).1.mem r = h.mem r := by
    intro r hr
    have hbase : ((h.alloc (HCell.elist (readE h g.edgesRef))).1).mem r = h.mem r :=
      PyHeap.alloc_mem_lt h _ r hr
    have hloop : (randomizeLoopH g.apeRef h.next p randoms draws fuel
        (List.range (readE h g.edgesRef).length)
        (h.alloc (HCell.elist (readE h g.edgesRef))).1).1.mem r = h.mem r := by
      rw [randomizeLoopH_mem _ _ _ _ _ _ _ _ r (Nat.ne_of_lt hr), hbase]
    have hnext : (randomizeLoopH g.apeRef h.next p randoms draws fuel
        (List.range (readE h g.edgesRef).length)
        (h.alloc (HCell.elist (readE h g.edgesRef))).1).1.next = h.next + 1 := by
      rw [randomizeLoopH_next]
      rfl
    unfold randomize_graphH
    by_cases hok : (randomizeLoopH g.apeRef h.next p randoms draws fuel
        (List.range (readE h g.edgesRef).length)
        (h.alloc (HCell.elist (readE h g.edgesRef))).1).2
    · rw [if_pos hok]
      unfold graphInitH
      rw [PyHeap.alloc_mem_lt, PyHeap.alloc_mem_lt, hloop]
      · rw [hnext]
        omega
      · rw [PyHeap.alloc] 
        show r < _ + 1
        rw [hnext]
        omega
    · rw [if_neg hok]
      exact hloop
  refine ⟨⟨hmem g.edgesRef he, hmem g.neighborsRef hn, hmem g.apeRef ha⟩, ?_⟩
  intro g' hg'
  have hnext : (randomizeLoopH g.apeRef h.next p randoms draws fuel
      (List.range (readE h g.edgesRef).length)
      (h.alloc (HCell.elist (readE h g.edgesRef))).1).1.next = h.next + 1 := by
    rw [randomizeLoopH_next]
    rfl
  unfold randomize_graphH at hg'
  by_cases hok : (randomizeLoopH g.apeRef h.next p randoms draws fuel
      (List.range (readE h g.edgesRef).length)
      (h.alloc (HCell.elist (readE h g.edgesRef))).1).2
  · rw [if_pos hok] at hg'
    have hg'' := Option.some.inj hg'
    subst hg''
    unfold graphInitH
    refine ⟨rfl, Nat.le_refl _, ?_, ?_⟩
    · show h.next ≤ (randomizeLoopH g.apeRef h.next p randoms draws fuel
        (List.range (readE h g.edgesRef).length)
        (h.alloc (HCell.elist (readE h g.edgesRef))).1).1.next
      rw [hnext]
      omega
    · show h.next ≤ _ + 1
      rw [hnext]
      omega
  · rw [if_neg hok] at hg'
    cases hg'

theorem C9_witness :
    (((⟨2, 0, 1, 2⟩ : GraphRef).edgesRef < (⟨fun _ => HCell.elist [(0, 1)], 3⟩ : PyHeap).next) ∧
     ((⟨2, 0, 1, 2⟩ : GraphRef).neighborsRef < (⟨fun _ => HCell.elist [(0, 1)], 3⟩ : PyHeap).next) ∧
     ((⟨2, 0, 1, 2⟩ : GraphRef).apeRef < (⟨fun _ => HCell.elist [(0, 1)], 3⟩ : PyHeap).next)) ∧
    (randomize_graphH ⟨fun _ => HCell.elist [(0, 1)], 3⟩ ⟨2, 0, 1, 2⟩ 0
        (fun _ => 0) (fun _ _ => 0) 1).1.mem
          (⟨2, 0, 1, 2⟩ : GraphRef).edgesRef =
      (⟨fun _ => HCell.elist [(0, 1)], 3⟩ : PyHeap).mem
        (⟨2, 0, 1, 2⟩ : GraphRef).edgesRef :=
  ⟨⟨by decide, by decide, by decide⟩,
   (C9_randomize_frame ⟨fun _ => HCell.elist [(0, 1)], 3⟩ ⟨2, 0, 1, 2⟩ 0
      (fun _ => 0) (fun _ _ => 0) 1 (by decide) (by decide) (by decide)).1.1⟩

/- ## Correctness of the path explorer (claim C5) -/

/-- Walks of a given length in a (directed) adjacency relation on
vertices; `Walk A a b k` holds when `b` is reachable from `a` in exactly
`k` steps. -/
inductive Walk (A : Nat → Nat → Prop) : Nat → Nat → Nat → Prop where
  | nil (a : Nat) : Walk A a a 0
  | cons {a b c : Nat} {k : Nat} : Walk A a b k → A b c → Walk A a c (k + 1)

/-- The adjacency relation read off the `neighbors` index. -/
def adjOf (ns : List (List Nat)) (a b : Nat) : Prop := b ∈ nbrGet ns a

theorem Walk.head {A : Nat → Nat → Prop} {a b c : Nat} {k : Nat}
    (hab : A a b) (w : Walk A b c k) : Walk A a c (k + 1) := by
  induction w with
  | nil => exact Walk.cons (Walk.nil a) hab
  | cons w' h ih => exact Walk.cons ih h

theorem Walk.reverse {A : Nat → Nat → Prop}
    (hsym : ∀ x y, A x y → A y x) {a b : Nat} {k : Nat}
    (w : Walk A a b k) : Walk A b a k := by
  induction w with
  | nil => exact Walk.nil _
  | cons w' h ih => exact Walk.head (hsym _ _ h) ih

theorem lookup_eq_none_iff (s : List (Nat × Nat)) (x : Nat) :
    s.lookup x = none ↔ x ∉ s.map Prod.fst := by
  induction s with
  | nil => simp
  | cons p t ih =>
      obtain ⟨k, d⟩ := p
      by_cases hx : x = k
      · subst hx
        simp [List.lookup]
      · simp only [List.lookup, List.map_cons, List.mem_cons, not_or]
        rw [show ((x == k) : Bool) = false from beq_eq_false_iff_ne.mpr hx]
        simp [ih, hx]

theorem mem_of_lookup_eq_some (s : List (Nat × Nat)) (x d : Nat)
    (h : s.lookup x = some d) : (x, d) ∈ s := by
  induction s with
  | nil => cases h
  | cons p t ih =>
      obtain ⟨k, b⟩ := p
      by_cases hx : x = k
      · subst hx
        simp only [List.lookup, beq_self_eq_true] at h
        cases h
        exact List.mem_cons_self _ _
      · simp only [List.lookup,
          show ((x == k) : Bool) = false from beq_eq_false_iff_ne.mpr hx] at h
        exact List.mem_cons_of_mem _ (ih h)

theorem lookup_eq_some_of_mem_nodup (s : List (Nat × Nat)) (x d : Nat)
    (hnd : (s.map Prod.fst).Nodup) (hm : (x, d) ∈ s) : s.lookup x = some d := by
  induction s with
  | nil => cases hm
  | cons p t ih =>
      obtain ⟨k, b⟩ := p
      rw [List.map_cons, List.nodup_cons] at hnd
      rcases List.mem_cons.mp hm with h | h
      · cases h
        simp [List.lookup]
      · have hx : x ≠ k := by
          intro hxk
          subst hxk
          exact hnd.1 (List.mem_map.mpr ⟨(x, d), h, rfl⟩)
        simp only [List.lookup,
          show ((x == k) : Bool) = false from beq_eq_false_iff_ne.mpr hx]
        exact ih hnd.2 h

theorem lookup_append_eq (s t : List (Nat × Nat)) (x : Nat) :
    (s ++ t).lookup x =
      match s.lookup x with
      | some d => some d
      | none => t.lookup x := by
  induction s with
  | nil => rfl
  | cons p s ih =>
      obtain ⟨k, b⟩ := p
      by_cases hx : x = k
      · subst hx
        simp [List.lookup]
      · rw [List.cons_append]
        simp only [List.lookup,
          show ((x == k) : Bool) = false from beq_eq_false_iff_ne.mpr hx]
        exact ih

/-- Entries appended by one pass: value is the new distance, key comes from
the visited neighbor list, and the key was not recorded before the pass. -/
theorem bfsNew_mem (d : Nat) :
    ∀ (l : List Nat) (s : List (Nat × Nat)) (p : Nat × Nat),
      p ∈ bfsNew s d l → p.2 = d ∧ p.1 ∈ l ∧ s.lookup p.1 = none := by
  intro l
  induction l with
  | nil => intro s p hp; cases hp
  | cons x xs ih =>
      intro s p hp
      unfold bfsNew at hp
      by_cases hm : (s.lookup x).isSome
      · rw [if_pos hm] at hp
        obtain ⟨h1, h2, h3⟩ := ih s p hp
        exact ⟨h1, List.mem_cons_of_mem x h2, h3⟩
      · rw [if_neg hm] at hp
        rcases List.mem_cons.mp hp with h | h
        · subst h
          exact ⟨rfl, List.mem_cons_self x xs,
            Option.not_isSome_iff_eq_none.mp hm⟩
        · obtain ⟨h1, h2, h3⟩ := ih (s ++ [(x, d)]) p h
          rw [lookup_append_eq] at h3
          refine ⟨h1, List.mem_cons_of_mem x h2, ?_⟩
          cases hs : s.lookup p.1 with
          | none => rfl
          | some b => rw [hs] at h3; cases h3

/-- Keys appended by one pass are distinct. -/
theorem bfsNew_nodup (d : Nat) :
    ∀ (l : List Nat) (s : List (Nat × Nat)),
      ((bfsNew s d l).map Prod.fst).Nodup := by
  intro l
  induction l with
  | nil => intro s; exact List.nodup_nil
  | cons x xs ih =>
      intro s
      unfold bfsNew
      by_cases hm : (s.lookup x).isSome
      · rw [if_pos hm]
        exact ih s
      · rw [if_neg hm]
        rw [List.map_cons, List.nodup_cons]
        refine ⟨?_, ih (s ++ [(x, d)])⟩
        intro hx
        obtain ⟨p, hp, hpx⟩ := List.mem_map.mp hx
        have h3 := (bfsNew_mem d xs (s ++ [(x, d)]) p hp).2.2
        rw [lookup_append_eq] at h3
        rw [hpx] at h3
        cases hs : s.lookup x with
        | some b => rw [hs] at h3; cases h3
        | none =>
            rw [hs] at h3
            simp [List.lookup] at h3

/-- Every visited neighbor is recorded after the pass, with a value at most
the new distance provided all previously recorded values were. -/
theorem bfsNew_covers (d : Nat) :
    ∀ (l : List Nat) (s : List (Nat × Nat)), (∀ p ∈ s, p.2 ≤ d) →
      ∀ x ∈ l, ∃ dx, (x, dx) ∈ s ++ bfsNew s d l ∧ dx ≤ d := by
  intro l
  induction l with
  | nil => intro s _ x hx; cases hx
  | cons y xs ih =>
      intro s hb x hx
      unfold bfsNew
      by_cases hm : (s.lookup y).isSome
      · rw [if_pos hm]
        rcases List.mem_cons.mp hx with h | h
        · subst h
          obtain ⟨b, hb'⟩ := Option.isSome_iff_exists.mp hm
          have hmem := mem_of_lookup_eq_some s x b hb'
          exact ⟨b, List.mem_append_left _ hmem, hb _ hmem⟩
        · exact ih s hb x h
      · rw [if_neg hm]
        rcases List.mem_cons.mp hx with h | h
        · subst h
          exact ⟨d, by simp, le_refl d⟩
        · have hb' : ∀ p ∈ s ++ [(y, d)], p.2 ≤ d := by
            intro p hp
            rcases List.mem_append.mp hp with h' | h'
            · exact hb p h'
            · rcases List.mem_singleton.mp h' with rfl
              exact le_refl d
          obtain ⟨dx, hdx, hle⟩ := ih (s ++ [(y, d)]) hb' x h
          rw [List.append_assoc] at hdx
          exact ⟨dx, hdx, hle⟩

/-- Loop invariant of the BFS `while` loop, tying the work queue and the
recorded mapping to the source vertex `v`. -/
structure BfsInv (ns : List (List Nat)) (v : Nat)
    (q s : List (Nat × Nat)) : Prop where
  seed : ∃ t, s = (v, 0) :: t
  nodupS : (s.map Prod.fst).Nodup
  nodupQ : (q.map Prod.fst).Nodup
  qsubS : ∀ p ∈ q, p ∈ s
  sound : ∀ p ∈ s, Walk (adjOf ns) v p.1 p.2
  keysBound : ∀ x ∈ s.map Prod.fst, x = v ∨ x ∈ ns.flatten
  sortedQ : List.Pairwise (fun a b => a ≤ b) (q.map Prod.snd)
  spread : ∀ a ∈ q.map Prod.snd, ∀ b ∈ q.map Prod.snd, a ≤ b + 1
  recent : ∀ p ∈ s, ∀ w ∈ q, p.2 ≤ w.2 + 1
  closure : ∀ p ∈ s, p.1 ∉ q.map Prod.fst →
    ∀ x ∈ nbrGet ns p.1, ∃ dx, (x, dx) ∈ s ∧ dx ≤ p.2 + 1

/-- What holds of the mapping the BFS loop returns. -/
structure BfsPost (ns : List (List Nat)) (v : Nat)
    (s : List (Nat × Nat)) : Prop where
  seed : ∃ t, s = (v, 0) :: t
  nodupS : (s.map Prod.fst).Nodup
  sound : ∀ p ∈ s, Walk (adjOf ns) v p.1 p.2
  closure : ∀ p ∈ s, ∀ x ∈ nbrGet ns p.1,
    ∃ dx, (x, dx) ∈ s ∧ dx ≤ p.2 + 1

theorem nbr_mem_flatten (ns : List (List Nat)) (w x : Nat)
    (hx : x ∈ nbrGet ns w) : x ∈ ns.flatten := by
  unfold nbrGet at hx
  by_cases hw : w < ns.length
  · rw [List.getD_eq_getElem ns [] hw] at hx
    exact List.mem_flatten.mpr ⟨ns[w], List.getElem_mem hw, hx⟩
  · rw [List.getD_eq_getElem?_getD, List.getElem?_eq_none (Nat.le_of_not_lt hw)]
      at hx
    cases hx

theorem pairwise_le_of_const (d : Nat) :
    ∀ L : List Nat, (∀ y ∈ L, y = d) → List.Pairwise (fun a b => a ≤ b) L := by
  intro L
  induction L with
  | nil => intro _; exact List.Pairwise.nil
  | cons y ys ih =>
      intro h
      refine List.Pairwise.cons ?_ (ih fun z hz => h z (List.mem_cons_of_mem y hz))
      intro b hb
      rw [h y (List.mem_cons_self y ys), h b (List.mem_cons_of_mem y hb)]

theorem bfsInv_seen_le (ns : List (List Nat)) (v : Nat)
    (q s : List (Nat × Nat)) (hinv : BfsInv ns v q s) :
    s.length ≤ 1 + totalNbrLen ns := by
  have h2 : (s.map Prod.fst) ⊆ v :: ns.flatten := by
    intro x hx
    rcases hinv.keysBound x hx with h | h
    · rw [h]; exact List.mem_cons_self _ _
    · exact List.mem_cons_of_mem _ h
  have h3 := (hinv.nodupS.subperm h2).length_le
  rw [List.length_map, List.length_cons, List.length_flatten] at h3
  unfold totalNbrLen
  omega

theorem bfsInv_step (ns : List (List Nat)) (v v0 d0 : Nat)
    (rest s : List (Nat × Nat))
    (hinv : BfsInv ns v ((v0, d0) :: rest) s) :
    BfsInv ns v (rest ++ bfsNew s (d0 + 1) (nbrGet ns v0))
      (s ++ bfsNew s (d0 + 1) (nbrGet ns v0)) := by
  set l := nbrGet ns v0 with hl
  set Δ := bfsNew s (d0 + 1) l with hΔ
  have hv0s : (v0, d0) ∈ s := hinv.qsubS _ (List.mem_cons_self _ _)
  have hb : ∀ p ∈ s, p.2 ≤ d0 + 1 := fun p hp =>
    hinv.recent p hp (v0, d0) (List.mem_cons_self _ _)
  have hmemΔ : ∀ p ∈ Δ, p.2 = d0 + 1 ∧ p.1 ∈ l ∧ s.lookup p.1 = none :=
    fun p hp => bfsNew_mem (d0 + 1) l s p hp
  have hfresh : ∀ p ∈ Δ, p.1 ∉ s.map Prod.fst := fun p hp =>
    (lookup_eq_none_iff s p.1).mp (hmemΔ p hp).2.2
  have hqvals : ((v0, d0) :: rest).map Prod.snd = d0 :: rest.map Prod.snd := rfl
  have hd0le : ∀ b ∈ rest.map Prod.snd, d0 ≤ b := by
    have := hinv.sortedQ
    rw [hqvals] at this
    exact (List.pairwise_cons.mp this).1
  have hqle : ∀ a ∈ ((v0, d0) :: rest).map Prod.snd, a ≤ d0 + 1 := by
    intro a ha
    exact hinv.spread a ha d0 (by rw [hqvals]; exact List.mem_cons_self _ _)
  have hΔvals : ∀ y ∈ Δ.map Prod.snd, y = d0 + 1 := by
    intro y hy
    obtain ⟨p, hp, rfl⟩ := List.mem_map.mp hy
    exact (hmemΔ p hp).1
  have hrestq : ∀ w ∈ rest, w ∈ (v0, d0) :: rest :=
    fun w hw => List.mem_cons_of_mem _ hw
  constructor
  case seed =>
    obtain ⟨t, ht⟩ := hinv.seed
    exact ⟨t ++ Δ, by rw [ht, List.cons_append]⟩
  case nodupS =>
    rw [List.map_append]
    refine List.Nodup.append hinv.nodupS (bfsNew_nodup (d0 + 1) l s) ?_
    intro a ha ha'
    obtain ⟨p, hp, rfl⟩ := List.mem_map.mp ha'
    exact hfresh p hp ha
  case nodupQ =>
    rw [List.map_append]
    have hrest : (rest.map Prod.fst).Nodup := by
      have := hinv.nodupQ
      rw [show ((v0, d0) :: rest).map Prod.fst = v0 :: rest.map Prod.fst from rfl,
        List.nodup_cons] at this
      exact this.2
    refine List.Nodup.append hrest (bfsNew_nodup (d0 + 1) l s) ?_
    intro a ha ha'
    obtain ⟨p, hp, rfl⟩ := List.mem_map.mp ha'
    obtain ⟨w, hw, hw'⟩ := List.mem_map.mp ha
    exact hfresh p hp
      (List.mem_map.mpr ⟨w, hinv.qsubS w (hrestq w hw), hw'⟩)
  case qsubS =>
    intro p hp
    rcases List.mem_append.mp hp with h | h
    · exact List.mem_append_left _ (hinv.qsubS p (hrestq p h))
    · exact List.mem_append_right _ h
  case sound =>
    intro p hp
    rcases List.mem_append.mp hp with h | h
    · exact hinv.sound p h
    · obtain ⟨h1, h2, _⟩ := hmemΔ p h
      rw [h1]
      exact Walk.cons (hinv.sound (v0, d0) hv0s) h2
  case keysBound =>
    intro x hx
    rw [List.map_append] at hx
    rcases List.mem_append.mp hx with h | h
    · exact hinv.keysBound x h
    · obtain ⟨p, hp, rfl⟩ := List.mem_map.mp h
      exact Or.inr (nbr_mem_flatten ns v0 p.1 (hmemΔ p hp).2.1)
  case sortedQ =>
    rw [List.map_append]
    refine List.pairwise_append.mpr ⟨?_, ?_, ?_⟩
    · have := hinv.sortedQ
      rw [hqvals] at this
      exact (List.pairwise_cons.mp this).2
    · exact pairwise_le_of_const (d0 + 1) _ hΔvals
    · intro a ha b hb
      rw [hΔvals b hb]
      exact hqle a (by rw [hqvals]; exact List.mem_cons_of_mem _ ha)
  case spread =>
    intro a ha b hb
    rw [List.map_append] at ha hb
    rcases List.mem_append.mp ha with ha' | ha' <;>
      rcases List.mem_append.mp hb with hb' | hb'
    · exact hinv.spread a
        (by rw [hqvals]; exact List.mem_cons_of_mem _ ha') b
        (by rw [hqvals]; exact List.mem_cons_of_mem _ hb')
    · rw [hΔvals b hb']
      have := hqle a (by rw [hqvals]; exact List.mem_cons_of_mem _ ha')
      omega
    · rw [hΔvals a ha']
      have := hd0le b hb'
      omega
    · rw [hΔvals a ha', hΔvals b hb']
      omega
  case recent =>
    intro p hp w hw
    rcases List.mem_append.mp hp with hp' | hp' <;>
      rcases List.mem_append.mp hw with hw' | hw'
    · exact hinv.recent p hp' w (hrestq w hw')
    · have h1 := hb p hp'
      have h2 := hΔvals w.2 (List.mem_map.mpr ⟨w, hw', rfl⟩)
      omega
    · have h1 := hΔvals p.2 (List.mem_map.mpr ⟨p, hp', rfl⟩)
      have h2 := hd0le w.2 (List.mem_map.mpr ⟨w, hw', rfl⟩)
      omega
    · have h1 := hΔvals p.2 (List.mem_map.mpr ⟨p, hp', rfl⟩)
      have h2 := hΔvals w.2 (List.mem_map.mpr ⟨w, hw', rfl⟩)
      omega
  case closure =>
    intro p hp hpq x hx
    rw [List.map_append] at hpq
    have hpq1 : p.1 ∉ rest.map Prod.fst := fun hc =>
      hpq (List.mem_append_left _ hc)
    have hpq2 : p.1 ∉ Δ.map Prod.fst := fun hc =>
      hpq (List.mem_append_right _ hc)
    rcases List.mem_append.mp hp with hp' | hp'
    · by_cases hpv : p.1 = v0
      · have hd : p.2 = d0 := by
          have e1 := lookup_eq_some_of_mem_nodup s p.1 p.2 hinv.nodupS hp'
          have e2 := lookup_eq_some_of_mem_nodup s v0 d0 hinv.nodupS hv0s
          rw [hpv, e2] at e1
          exact (Option.some.inj e1).symm
        have hx' : x ∈ l := by rw [hl, ← hpv]; exact hx
        obtain ⟨dx, hdx, hdxle⟩ := bfsNew_covers (d0 + 1) l s hb x hx'
        exact ⟨dx, hdx, by omega⟩
      · have hnotq : p.1 ∉ ((v0, d0) :: rest).map Prod.fst := by
          rw [show ((v0, d0) :: rest).map Prod.fst = v0 :: rest.map Prod.fst
            from rfl, List.mem_cons]
          rintro (h | h)
          · exact hpv h
          · exact hpq1 h
        obtain ⟨dx, hdx, hdxle⟩ := hinv.closure p hp' hnotq x hx
        exact ⟨dx, List.mem_append_left _ hdx, hdxle⟩
    · exact absurd (List.mem_map.mpr ⟨p, hp', rfl⟩) hpq2

theorem bfsLoop_post (ns : List (List Nat)) (v : Nat) :
    ∀ (fuel : Nat) (q s : List (Nat × Nat)),
      BfsInv ns v q s →
      q.length + 2 * ((1 + totalNbrLen ns) - s.length) < fuel →
      BfsPost ns v (bfsLoop ns fuel q s) := by
  intro fuel
  induction fuel with
  | zero => intro q s _ hM; exact absurd hM (Nat.not_lt_zero _)
  | succ f ih =>
      intro q s hinv hM
      cases q with
      | nil =>
          show BfsPost ns v s
          exact ⟨hinv.seed, hinv.nodupS, hinv.sound,
            fun p hp x hx => hinv.closure p hp (by simp) x hx⟩
      | cons vd rest =>
          obtain ⟨v0, d0⟩ := vd
          have hstep : bfsLoop ns (f + 1) ((v0, d0) :: rest) s =
              bfsLoop ns f (rest ++ bfsNew s (d0 + 1) (nbrGet ns v0))
                (s ++ bfsNew s (d0 + 1) (nbrGet ns v0)) := by
            show bfsLoop ns f
              ((nbrGet ns v0).foldl (bfsInsert (d0 + 1)) (rest, s)).1
              ((nbrGet ns v0).foldl (bfsInsert (d0 + 1)) (rest, s)).2 = _
            rw [bfsInsert_foldl]
          rw [hstep]
          have hinv' := bfsInv_step ns v v0 d0 rest s hinv
          have hlen' := bfsInv_seen_le ns v _ _ hinv'
          apply ih _ _ hinv'
          rw [List.length_append] at hlen'
          rw [List.length_append, List.length_append]
          rw [List.length_cons] at hM
          omega

/-- The final BFS state of `shortest_path` satisfies the post-condition. -/
theorem shortest_path_post (g : Graph) (v : Nat) :
    BfsPost g.neighbors v (shortest_path g v) := by
  unfold shortest_path bfsFuel
  apply bfsLoop_post
  · refine
      { seed := ⟨[], rfl⟩
        nodupS := by simp
        nodupQ := by simp
        qsubS := fun p hp => hp
        sound := ?_
        keysBound := ?_
        sortedQ := by simp
        spread := ?_
        recent := ?_
        closure := ?_ }
    · intro p hp
      rcases List.mem_singleton.mp hp with rfl
      exact Walk.nil v
    · intro x hx
      rcases List.mem_singleton.mp (by simpa using hx) with rfl
      exact Or.inl rfl
    · intro a ha b hb
      rcases List.mem_singleton.mp (by simpa using ha) with rfl
      omega
    · intro p hp w hw
      rcases List.mem_singleton.mp hp with rfl
      omega
    · intro p hp hpq
      rcases List.mem_singleton.mp hp with rfl
      exact absurd (by simp) hpq
  · simp only [List.length_singleton]
    omega

/-- Vertices at walk distance `k` from the source are recorded with a value
at most `k`. -/
theorem bfsPost_reach (ns : List (List Nat)) (v : Nat) (s : List (Nat × Nat))
    (hpost : BfsPost ns v s) :
    ∀ (k x : Nat), Walk (adjOf ns) v x k → ∃ dx, (x, dx) ∈ s ∧ dx ≤ k := by
  intro k x hw
  induction hw with
  | nil =>
      obtain ⟨t, ht⟩ := hpost.seed
      exact ⟨0, by rw [ht]; exact List.mem_cons_self _ _, Nat.le_refl 0⟩
  | cons hw' h ih =>
      obtain ⟨db, hdb, hdble⟩ := ih
      obtain ⟨dc, hdc, hdcle⟩ := hpost.closure _ hdb _ h
      exact ⟨dc, hdc, by omega⟩

/-- The BFS mapping records exactly the shortest-walk distance: `lookup`
returns `some d` iff `d` is a walk length from the source and no shorter
walk exists. -/
theorem shortest_path_lookup_iff (g : Graph) (v u d : Nat) :
    (shortest_path g v).lookup u = some d ↔
      (Walk (adjOf g.neighbors) v u d ∧
        ∀ k, Walk (adjOf g.neighbors) v u k → d ≤ k) := by
  have hpost := shortest_path_post g v
  constructor
  · intro h
    have hmem := mem_of_lookup_eq_some _ u d h
    refine ⟨hpost.sound (u, d) hmem, ?_⟩
    intro k hk
    obtain ⟨d', hd', hd'le⟩ := bfsPost_reach _ _ _ hpost k u hk
    have hlk := lookup_eq_some_of_mem_nodup _ u d' hpost.nodupS hd'
    rw [h] at hlk
    have := Option.some.inj hlk
    omega
  · rintro ⟨hw, hmin⟩
    obtain ⟨d', hd', hd'le⟩ := bfsPost_reach _ _ _ hpost d u hw
    have hlk := lookup_eq_some_of_mem_nodup _ u d' hpost.nodupS hd'
    have hwd' := hpost.sound (u, d') hd'
    have h1 := hmin d' hwd'
    have h2 : d = d' := Nat.le_antisymm h1 hd'le
    rw [hlk, h2]

/-- A vertex is absent from the BFS mapping exactly when it is unreachable
from the source. -/
theorem shortest_path_lookup_none_iff (g : Graph) (v u : Nat) :
    (shortest_path g v).lookup u = none ↔
      ¬ ∃ k, Walk (adjOf g.neighbors) v u k := by
  have hpost := shortest_path_post g v
  rw [lookup_eq_none_iff]
  constructor
  · rintro hns ⟨k, hk⟩
    obtain ⟨d', hd', _⟩ := bfsPost_reach _ _ _ hpost k u hk
    exact hns (List.mem_map.mpr ⟨(u, d'), hd', rfl⟩)
  · intro hnr hc
    obtain ⟨p, hp, hp1⟩ := List.mem_map.mp hc
    refine hnr ⟨p.2, ?_⟩
    have := hpost.sound p hp
    rw [hp1] at this
    exact this

/-- The adjacency read off a constructed graph's `neighbors` index is
symmetric when the edge endpoints are in range. -/
theorem adjOf_ofEdges_symm (n : Nat) (es : List (Nat × Nat))
    (hwf : ∀ e ∈ es, e.1 < n ∧ e.2 < n) :
    ∀ x y, adjOf (Graph.ofEdges n es).neighbors x y →
      adjOf (Graph.ofEdges n es).neighbors y x := by
  intro x y h
  unfold adjOf at h ⊢
  rw [show (Graph.ofEdges n es).neighbors = buildNeighbors n es from rfl] at h ⊢
  rw [mem_buildNeighbors n es hwf y x] at h
  rw [mem_buildNeighbors n es hwf x y]
  tauto

/-- C5: for a graph constructed from in-range edges and any vertex `v`,
the BFS result maps `v` to `0`; for every `u` reachable from `v` both
lookups are defined and `shortest_path(v)[u] = shortest_path(u)[v]`; and a
vertex is absent from the result exactly when it is unreachable from the
source — an incomplete result rather than an error. -/
theorem C5_shortest_path_properties (n : Nat) (es : List (Nat × Nat))
    (hwf : ∀ e ∈ es, e.1 < n ∧ e.2 < n) (v : Nat) (hv : v < n) :
    (shortest_path (Graph.ofEdges n es) v).lookup v = some 0 ∧
    (∀ u, (∃ k, Walk (adjOf (Graph.ofEdges n es).neighbors) v u k) →
      ((shortest_path (Graph.ofEdges n es) v).lookup u).isSome ∧
      (shortest_path (Graph.ofEdges n es) v).lookup u =
        (shortest_path (Graph.ofEdges n es) u).lookup v) ∧
    (∀ u, (shortest_path (Graph.ofEdges n es) v).lookup u = none ↔
      ¬ ∃ k, Walk (adjOf (Graph.ofEdges n es).neighbors) v u k) := by
  refine ⟨shortest_path_self _ v, ?_, fun u => shortest_path_lookup_none_iff _ v u⟩
  intro u hreach
  have hne : (shortest_path (Graph.ofEdges n es) v).lookup u ≠ none := by
    intro hc
    rw [shortest_path_lookup_none_iff] at hc
    exact hc hreach
  obtain ⟨d, hd⟩ := Option.ne_none_iff_exists'.mp hne
  refine ⟨by rw [hd]; rfl, ?_⟩
  obtain ⟨hwd, hmin⟩ := (shortest_path_lookup_iff _ v u d).mp hd
  have hsym := adjOf_ofEdges_symm n es hwf
  have hrev : Walk (adjOf (Graph.ofEdges n es).neighbors) u v d :=
    Walk.reverse hsym hwd
  have hminrev : ∀ k, Walk (adjOf (Graph.ofEdges n es).neighbors) u v k → d ≤ k :=
    fun k hk => hmin k (Walk.reverse hsym hk)
  have := (shortest_path_lookup_iff _ u v d).mpr ⟨hrev, hminrev⟩
  rw [hd, this]

theorem C5_witness :
    (∀ e ∈ [((0 : Nat), (1 : Nat))], e.1 < 3 ∧ e.2 < 3) ∧ (0 : Nat) < 3 ∧
    (shortest_path (Graph.ofEdges 3 [(0, 1)]) 0).lookup 0 = some 0 :=
  ⟨by decide, by decide,
    (C5_shortest_path_properties 3 [(0, 1)] (by decide) 0 (by decide)).1⟩
